import Mathlib

/-!
A shallow embedding of the Hill-cipher processor from `src/process.rs`
(repository `MrFixThis/hill_cipher`), together with theorems settling the
frozen claims about its specification.

Modelling conventions:
* Rust `String` values are modelled as `List Char`; `str::to_uppercase` and
  `char::to_ascii_uppercase` are modelled with `Char.toUpper` (they agree on
  ASCII data, which is the domain of every namespace involved here).
* `rulinalg` matrices are modelled as Mathlib matrices over `Int`
  (for the exact integer data the program stores in its `f64` matrices) and
  over `Rat` (for the real-valued matrix inverse computed during decipher).
  The floating-point arithmetic of the reference is modelled exactly, as the
  specification's design notes prescribe for a faithful reimplementation.
* A Rust `Result` is an `Outcome`: `ok`, `err` (the `ProcessingError` carrying
  a message) or `panic` (an `unwrap`/assert/division-by-zero abort).
  Interpolated data is omitted from the modelled error messages.
* The `modinverse` crate's `egcd`/`modinverse` functions and the places where
  `rulinalg` panics (`Matrix::new` with mismatched data length, indexing) or
  fails (`inverse()` on a singular matrix) are modelled from their sources'
  documented behaviour, since they are the external collaborators the
  processor calls into.
-/

/-- Outcome of a fallible Rust computation: success, a returned error
(`ProcessingError` with its message), or a panic. -/
inductive Outcome (α : Type) where
  | ok (a : α)
  | err (msg : String)
  | panic
deriving DecidableEq

/-- Sequencing of fallible computations; models Rust's `?` operator
(a panic likewise aborts everything after it). -/
def Outcome.bind {α β : Type} : Outcome α → (α → Outcome β) → Outcome β
  | .ok a, f => f a
  | .err m, _ => .err m
  | .panic, _ => .panic

@[simp] theorem Outcome.bind_ok {α β : Type} (a : α) (f : α → Outcome β) :
    (Outcome.ok a).bind f = f a := rfl

@[simp] theorem Outcome.bind_err {α β : Type} (m : String) (f : α → Outcome β) :
    (Outcome.err m).bind f = .err m := rfl

@[simp] theorem Outcome.bind_panic {α β : Type} (f : α → Outcome β) :
    (Outcome.panic).bind f = .panic := rfl

/-- Default namespace used by the `cipher` and `decipher` algorithms
(`DEFAULT_NAMESPACE` in `process.rs`). -/
def DEFAULT_NAMESPACE : List Char :=
  ['A', 'B', 'C', 'D', 'E', 'F', 'G', 'H', 'I', 'J', 'K', 'L', 'M', 'N', 'O',
   'P', 'Q', 'R', 'S', 'T', 'U', 'V', 'W', 'X', 'Y', 'Z']

/-- Report of a cipher/decipher process (`Report` in `process.rs`). -/
structure Report where
  used_key : List Char
  source_txt : List Char
  fill_letter : Option Char
  result_txt : List Char
  filled : Bool
  def_namespace : Option (List Char)
deriving DecidableEq

/-- The processor's input data (`Processor` in `process.rs`); the field
`nspace` models the Rust field `namespace`. -/
structure Processor where
  key : List Char
  source : List Char
  fill_letter : Option Char
  nspace : Option (List Char)
deriving DecidableEq

/-- Uppercasing of a whole string (`str::to_uppercase`, modelled ASCII-wise). -/
def upperStr (l : List Char) : List Char := l.map Char.toUpper

/-- Fuel-driven linear search for the integer square root: increments the
candidate while the next square still fits. Fuel `n` always suffices. -/
def isqrt_go (n : Nat) : Nat → Nat → Nat
  | 0, acc => acc
  | fuel + 1, acc => if (acc + 1) * (acc + 1) ≤ n then isqrt_go n fuel (acc + 1) else acc

/-- Integer square root, modelling Rust's `(len as f64).sqrt() as usize`
(exact on the sizes involved): the largest `r` with `r * r ≤ n`. -/
def isqrt (n : Nat) : Nat := isqrt_go n n 0

/-- Checks if the supplied number is square (`is_square` in `process.rs`). -/
def is_square (num : Nat) : Bool :=
  num == 0 || num == 1 || (isqrt num) ^ 2 == num

/-- Checks if the target number is divisible by another one
(`is_divisble` in `process.rs`); the Rust code panics when `num = 0`,
which the call site in `cipher` guards explicitly in this model. -/
def is_divisble (target : Nat) (num : Nat) : Bool := target % num == 0

/-- Fuel-driven loop of `turn_divisible`: increments `base` until it is
divisible by `dim`. -/
def turn_divisible_go (dim : Nat) : Nat → Nat → Nat
  | 0, base => base
  | fuel + 1, base => if base % dim = 0 then base else turn_divisible_go dim fuel (base + 1)

/-- Turns a target number divisible by another one (`turn_divisible` in
`process.rs`): the loop stops at the first `base ≥ target` divisible by
`dim`; fuel `dim + 1` always suffices for `dim ≥ 1`. -/
def turn_divisible (target : Nat) (dim : Nat) : Nat :=
  turn_divisible_go dim (dim + 1) target

/-- Fills a text with a character `(a - b)` times (`fill_txt` in
`process.rs`); the appended text is uppercased, an unchanged text is not. -/
def fill_txt (txt : List Char) (c : Char) (a b : Nat) : List Char :=
  let reps := a - b
  if reps ≠ 0 then upperStr (txt ++ List.replicate reps c) else txt

/-- Position of a character inside the namespace after ASCII-uppercasing it
(`char_pos` in `process.rs`); the Rust `unwrap` panic on a missed lookup is
modelled at the call site `txt_mtrx_repr`. -/
def char_pos (c : Char) (ns : List Char) : Nat :=
  ns.findIdx (fun x => x == c.toUpper)

/-- Checks if `target` has a factor in the range `target..number`
(`has_any_factor` in `process.rs`): the loop tries every
`factor ∈ [target, number)` and reports whether one divides `target`. -/
def has_any_factor (target : Nat) (number : Nat) : Bool :=
  (List.range' target (number - target)).any (fun factor => target % factor == 0)

/-- Euclidean modulus (`euc_mod` in `process.rs`): for `a < 0` the code
computes `b - ((!a as u128) % b) - 1`, and `!a` is `-a - 1` in two's
complement. -/
def euc_mod (a : Int) (b : Nat) : Nat :=
  if 0 ≤ a then a.toNat % b else b - ((-a - 1).toNat % b) - 1

/-- Fuel-driven extended Euclid from the `modinverse` crate:
`egcd(a, b) = if a == 0 { (b, 0, 1) } else { let (g, x, y) = egcd(b % a, a); (g, y - (b / a) * x, x) }`
with Rust's truncated `%` and `/` (`Int.tmod`/`Int.tdiv`).
Fuel `a.natAbs + 1` always suffices. -/
def egcd_go : Nat → Int → Int → Int × Int × Int
  | 0, _, b => (b, 0, 1)
  | fuel + 1, a, b =>
    if a = 0 then (b, 0, 1)
    else
      let r := egcd_go fuel (b.tmod a) a
      (r.1, r.2.2 - (b.tdiv a) * r.2.1, r.2.1)

/-- Extended Euclid of the `modinverse` crate. -/
def egcd (a b : Int) : Int × Int × Int := egcd_go (a.natAbs + 1) a b

/-- The `modinverse` crate's `modinverse(a, m)`:
`let (g, x, _) = egcd(a, m); if g != 1 { None } else { Some((x % m + m) % m) }`. -/
def modinverse (a m : Int) : Option Int :=
  let r := egcd a m
  if r.1 ≠ 1 then none else some (((r.2.1.tmod m) + m).tmod m)

/-- Adjacent-duplicate detector modelling the regex `(.)\1{1,}` of
`check_namespace`: it matches exactly when some character other than a
newline (which `.` does not match) is immediately followed by itself. -/
def hasAdjacentDup : List Char → Bool
  | c1 :: c2 :: rest => (c1 != '\n' && c1 == c2) || hasAdjacentDup (c2 :: rest)
  | _ => false

/-- Checks if a custom namespace is malformed (`Processor::check_namespace`). -/
def check_namespace (ns : List Char) : Outcome Unit :=
  if hasAdjacentDup ns then .err "the supplied namespace has duplicated characters"
  else .ok ()

/-- Defines the namespace to use (`Processor::def_namespace`). -/
def def_namespace (nso : Option (List Char)) : Outcome (List Char) :=
  match nso with
  | some ns =>
    (check_namespace ns).bind fun _ =>
      if ¬ is_square ns.length then
        .err "the supplied namespace must be square in length"
      else .ok ns
  | none => .ok DEFAULT_NAMESPACE

/-- Checks if a character is inside the namespace
(`Processor::is_in_namespace`): an exact, case-sensitive lookup. -/
def is_in_namespace (c : Char) (ns : List Char) : Outcome Unit :=
  if c ∈ ns then .ok ()
  else .err "the character is not present in the namespace"

/-- Checks one string character by character against the namespace, the way
`check_information`'s `for` loop does, stopping at the first offender. -/
def check_chars (l : List Char) (ns : List Char) : Outcome Unit :=
  match l with
  | [] => .ok ()
  | c :: rest => (is_in_namespace c ns).bind fun _ => check_chars rest ns

/-- The fill-letter membership check of `check_information`
(`if let Some(f) = self.fill_letter { ... }`). -/
def check_fill (fill : Option Char) (ns : List Char) : Outcome Unit :=
  match fill with
  | some f => is_in_namespace f ns
  | none => .ok ()

/-- Checks the validness of the user supplied information
(`Processor::check_information`): square key length, fill letter in the
namespace, then every key and source character in the namespace. -/
def check_information (p : Processor) (ns : List Char) : Outcome Unit :=
  if ¬ is_square p.key.length then
    .err "the supplied key must be square in length"
  else
    (check_fill p.fill_letter ns).bind fun _ =>
    (check_chars p.key ns).bind fun _ =>
    check_chars p.source ns

/-- Checks if the key's matrix determinant is usable
(`Processor::check_key_mtrx_validness`). -/
def check_key_mtrx_validness (det : Int) (ns_len : Nat) : Outcome Unit :=
  let mod_mul_inv := modinverse det (ns_len : Int)
  if det = 0 ∨ mod_mul_inv = none ∨ has_any_factor det.natAbs ns_len then
    .err "the specified key cannot be used"
  else .ok ()

/-- Splits a text into its numeric representation inside the namespace and
stores it in a `rows × cols` matrix which is then transposed
(`txt_mtrx_repr` in `process.rs`): entry `(i, j)` of the transposed matrix
is `parts[j * cols + i]`. `rulinalg`'s `Matrix::new` asserts
`data.len() == rows * cols`, and `char_pos` unwraps each lookup; both abort
as a panic. -/
def txt_mtrx_repr (rows cols : Nat) (src : List Char) (ns : List Char) :
    Outcome (Matrix (Fin cols) (Fin rows) Int) :=
  if (∀ c ∈ src, c.toUpper ∈ ns) ∧ src.length = rows * cols then
    .ok (Matrix.of fun i j => (char_pos (src.getD (j.1 * cols + i.1) 'A') ns : Int))
  else .panic

/-- Multiplies the key matrix by the source matrix, transposes, and maps each
cell through `euc_mod` into a namespace symbol (`translate_txt_mtrx` in
`process.rs`): row `j` of the transpose is column `j` of the product, so the
result text is the concatenation of the product's columns. -/
def translate_txt_mtrx {d m : Nat} (key_mtrx : Matrix (Fin d) (Fin d) Int)
    (src_mtrx : Matrix (Fin d) (Fin m) Int) (ns : List Char) : List Char :=
  let mtrx_mul := key_mtrx * src_mtrx
  ((List.finRange m).map fun j =>
    (List.finRange d).map fun i =>
      ns.getD (euc_mod (mtrx_mul i j) ns.length) 'A').flatten

/-- Builds the final report (`Processor::build_report`). -/
def build_report (p : Processor) (res_text : List Char) (filled : Bool) : Report :=
  { used_key := p.key
    source_txt := p.source
    fill_letter := p.fill_letter
    result_txt := res_text
    filled := filled
    def_namespace := p.nspace }

/-- The padding step of `cipher` (lines 58-69 of `process.rs`): fill when the
source length is not divisible by the dimension, uppercase otherwise; the
`fill_letter.unwrap()` panics when no fill letter was supplied. -/
def pad_step (source : List Char) (fill : Option Char) (d : Nat) :
    Outcome (List Char × Bool) :=
  if ¬ is_divisble source.length d then
    match fill with
    | none => .panic
    | some f => .ok (fill_txt source f (turn_divisible source.length d) source.length, true)
  else .ok (upperStr source, false)

/-- Ciphers the source text (`Processor::cipher`). The explicit panic for
`dimension = 0` models Rust's `source.len() % 0` abort in the divisibility
check for an empty key. -/
def cipher (p : Processor) : Outcome Report :=
  (def_namespace p.nspace).bind fun ns =>
  (check_information p ns).bind fun _ =>
  if isqrt p.key.length = 0 then .panic
  else
    (pad_step p.source p.fill_letter (isqrt p.key.length)).bind fun st =>
    (txt_mtrx_repr (isqrt p.key.length) (isqrt p.key.length) p.key ns).bind fun key_mtrx =>
    (check_key_mtrx_validness key_mtrx.det ns.length).bind fun _ =>
    (txt_mtrx_repr (st.1.length / isqrt p.key.length) (isqrt p.key.length) st.1 ns).bind
      fun src_mtrx =>
    .ok (build_report p (translate_txt_mtrx key_mtrx src_mtrx ns) st.2)

/-- Models Rust's `Option::unwrap`: a missing value is a panic. -/
def unwrapO {α : Type} : Option α → Outcome α
  | none => .panic
  | some a => .ok a

@[simp] theorem unwrapO_some {α : Type} (a : α) : unwrapO (some a) = .ok a := rfl

@[simp] theorem unwrapO_none {α : Type} : unwrapO (none : Option α) = .panic := rfl

/-- Deciphers the source text (`Processor::decipher`). `rulinalg`'s
`inverse()` fails exactly on a singular matrix (`det = 0`), producing the
code's misnamed key error; the modular multiplicative inverse is then
unwrapped (panic when `None`); the real-valued inverse is scaled cell-wise by
`round((v * mod_mul_inv) * det)`; the explicit panic for `dimension = 0`
models Rust's `source.len() / 0` abort for an empty key. -/
def decipher (p : Processor) : Outcome Report :=
  (def_namespace p.nspace).bind fun ns =>
  (check_information p ns).bind fun _ =>
  (txt_mtrx_repr (isqrt p.key.length) (isqrt p.key.length) p.key ns).bind fun key_mtrx =>
  if key_mtrx.det = 0 then
    .err "invalid or malformed key. the key has no a square length"
  else
    (check_key_mtrx_validness key_mtrx.det ns.length).bind fun _ =>
    (unwrapO (modinverse key_mtrx.det (ns.length : Int))).bind fun mod_mul_inv =>
    if isqrt p.key.length = 0 then .panic
    else
      (txt_mtrx_repr (p.source.length / isqrt p.key.length) (isqrt p.key.length)
          p.source ns).bind fun src_mtrx =>
      .ok (build_report p (translate_txt_mtrx
        (Matrix.of fun i j =>
          round (((((key_mtrx.map (Int.cast : Int → Rat)).det)⁻¹ •
            (key_mtrx.map (Int.cast : Int → Rat)).adjugate) i j * (mod_mul_inv : Rat)) *
            (key_mtrx.det : Rat)))
        src_mtrx ns) false)

/-- Decipher with the real-inverse scaling collapsed to its exact integer
value `mod_mul_inv • adjugate`: computationally convenient form, proved equal
to `decipher` in `decipher_eq_decipherInt`. -/
def decipherInt (p : Processor) : Outcome Report :=
  (def_namespace p.nspace).bind fun ns =>
  (check_information p ns).bind fun _ =>
  (txt_mtrx_repr (isqrt p.key.length) (isqrt p.key.length) p.key ns).bind fun key_mtrx =>
  if key_mtrx.det = 0 then
    .err "invalid or malformed key. the key has no a square length"
  else
    (check_key_mtrx_validness key_mtrx.det ns.length).bind fun _ =>
    (unwrapO (modinverse key_mtrx.det (ns.length : Int))).bind fun mod_mul_inv =>
    if isqrt p.key.length = 0 then .panic
    else
      (txt_mtrx_repr (p.source.length / isqrt p.key.length) (isqrt p.key.length)
          p.source ns).bind fun src_mtrx =>
      .ok (build_report p (translate_txt_mtrx
        (Matrix.of fun i j => mod_mul_inv * key_mtrx.adjugate i j)
        src_mtrx ns) false)

/-! ### Arithmetic helper lemmas -/

theorem isqrt_go_sq_le (n : Nat) : ∀ (fuel acc : Nat), acc * acc ≤ n →
    isqrt_go n fuel acc * isqrt_go n fuel acc ≤ n := by
  intro fuel
  induction fuel with
  | zero => intro acc h; exact h
  | succ k ih =>
    intro acc h
    rw [isqrt_go]
    by_cases hc : (acc + 1) * (acc + 1) ≤ n
    · rw [if_pos hc]; exact ih (acc + 1) hc
    · rw [if_neg hc]; exact h

theorem isqrt_go_ge_acc (n : Nat) : ∀ (fuel acc : Nat), acc ≤ isqrt_go n fuel acc := by
  intro fuel
  induction fuel with
  | zero => intro acc; exact Nat.le_refl _
  | succ k ih =>
    intro acc
    rw [isqrt_go]
    by_cases hc : (acc + 1) * (acc + 1) ≤ n
    · rw [if_pos hc]; exact (Nat.le_succ acc).trans (ih (acc + 1))
    · rw [if_neg hc]

theorem isqrt_go_ge (n : Nat) : ∀ (fuel acc r : Nat), r ≤ acc + fuel → r * r ≤ n →
    r ≤ isqrt_go n fuel acc := by
  intro fuel
  induction fuel with
  | zero => intro acc r h1 _; simpa [isqrt_go] using h1
  | succ k ih =>
    intro acc r h1 h2
    rw [isqrt_go]
    by_cases hc : (acc + 1) * (acc + 1) ≤ n
    · rw [if_pos hc]
      rcases le_or_lt r acc with hr | hr
      · exact hr.trans ((Nat.le_succ acc).trans (isqrt_go_ge_acc n k (acc + 1)))
      · exact ih (acc + 1) r (by omega) h2
    · rw [if_neg hc]
      by_contra hlt
      exact hc (Nat.le_trans (Nat.mul_le_mul (by omega) (by omega)) h2)

/-- The modelled integer square root is exact on perfect squares. -/
theorem isqrt_mul_self (d : Nat) : isqrt (d * d) = d := by
  have h1 : isqrt (d * d) * isqrt (d * d) ≤ d * d :=
    isqrt_go_sq_le (d * d) (d * d) 0 (Nat.zero_le _)
  have h2 : d ≤ isqrt (d * d) :=
    isqrt_go_ge (d * d) (d * d) 0 d (by nlinarith) (Nat.le_refl _)
  have h3 : isqrt (d * d) ≤ d := by
    by_contra h
    exact absurd h1 (Nat.not_le.mpr (Nat.mul_self_lt_mul_self (by omega)))
  omega

/-- Perfect squares pass `is_square`. -/
theorem is_square_mul_self (d : Nat) : is_square (d * d) = true := by
  simp [is_square, isqrt_mul_self, pow_two]

/-- Truncated remainder is congruent to the dividend. -/
theorem tmod_modEq (a b : Int) : Int.tmod a b ≡ a [ZMOD b] :=
  Int.ModEq.symm (Int.modEq_iff_dvd.mpr ⟨-(a.tdiv b), by have := Int.tmod_add_tdiv a b; linarith⟩)

/-- Absolute value of a truncated remainder. -/
theorem natAbs_tmod (a b : Int) : (a.tmod b).natAbs = a.natAbs % b.natAbs := by
  cases a with
  | ofNat m =>
    cases b with
    | ofNat n => rfl
    | negSucc n => rfl
  | negSucc m =>
    cases b with
    | ofNat n =>
      rw [show Int.tmod (Int.negSucc m) (Int.ofNat n) = -Int.ofNat ((m + 1) % n) from rfl,
        Int.natAbs_neg]
      rfl
    | negSucc n =>
      rw [show Int.tmod (Int.negSucc m) (Int.negSucc n) = -Int.ofNat ((m + 1) % (n + 1)) from rfl,
        Int.natAbs_neg]
      rfl

/-- Bezout invariant of the crate's extended Euclid, for sufficient fuel. -/
theorem egcd_go_bezout : ∀ (fuel : Nat) (a b : Int), a.natAbs < fuel →
    a * (egcd_go fuel a b).2.1 + b * (egcd_go fuel a b).2.2 = (egcd_go fuel a b).1 := by
  intro fuel
  induction fuel with
  | zero => intro a b h; omega
  | succ k ih =>
    intro a b h
    rw [egcd_go]
    by_cases ha : a = 0
    · rw [if_pos ha]; simp [ha]
    · rw [if_neg ha]
      have hfuel : (b.tmod a).natAbs < k := by
        have h1 : (b.tmod a).natAbs = b.natAbs % a.natAbs := natAbs_tmod b a
        have h2 : 0 < a.natAbs := Int.natAbs_pos.mpr ha
        have h3 : b.natAbs % a.natAbs < a.natAbs := Nat.mod_lt _ h2
        omega
      have hih := ih (b.tmod a) a hfuel
      have hsub : b.tmod a = b - a * (b.tdiv a) := by
        have := Int.tmod_add_tdiv b a
        linarith
      set r := egcd_go k (b.tmod a) a with hr
      rw [hsub] at hih
      ring_nf
      ring_nf at hih
      linarith

/-- The Bezout identity for the crate's `egcd`. -/
theorem egcd_bezout (a b : Int) :
    a * (egcd a b).2.1 + b * (egcd a b).2.2 = (egcd a b).1 :=
  egcd_go_bezout (a.natAbs + 1) a b (Nat.lt_succ_self _)

/-- When the crate's `modinverse` succeeds, it returns a genuine modular
multiplicative inverse. -/
theorem modinverse_spec (a m v : Int) (h : modinverse a m = some v) :
    a * v ≡ 1 [ZMOD m] := by
  unfold modinverse at h
  by_cases hg : (egcd a m).1 ≠ 1
  · simp [hg] at h
  · simp only [hg, if_false, Option.some.injEq, ite_not] at h
    push_neg at hg
    have hb := egcd_bezout a m
    rw [hg] at hb
    set x := (egcd a m).2.1 with hx
    have hv : v ≡ x [ZMOD m] := by
      calc v = ((x.tmod m) + m).tmod m := h.symm
        _ ≡ (x.tmod m) + m [ZMOD m] := tmod_modEq _ m
        _ ≡ (x.tmod m) + 0 [ZMOD m] :=
            Int.ModEq.add_left _ ((Int.modEq_iff_dvd.mpr (by simp)).symm)
        _ = x.tmod m := by ring
        _ ≡ x [ZMOD m] := tmod_modEq x m
    calc a * v ≡ a * x [ZMOD m] := Int.ModEq.mul_left a hv
      _ ≡ a * x + m * (egcd a m).2.2 [ZMOD m] := by
          have : m * (egcd a m).2.2 ≡ 0 [ZMOD m] :=
            (Int.modEq_iff_dvd.mpr (by simp)).symm
          calc a * x = a * x + 0 := by ring
            _ ≡ a * x + m * (egcd a m).2.2 [ZMOD m] := Int.ModEq.add_left _ this.symm
      _ = 1 := hb

/-- The Euclidean modulus agrees with the mathematical non-negative
residue: it casts to `a % b` on the integers. -/
theorem euc_mod_cast (a : Int) (b : Nat) (hb : 0 < b) :
    (euc_mod a b : Int) = a % (b : Int) := by
  unfold euc_mod
  by_cases ha : 0 ≤ a
  · rw [if_pos ha]
    push_cast
    rw [Int.toNat_of_nonneg ha]
  · rw [if_neg ha]
    push_neg at ha
    set A := (-a - 1).toNat with hA
    have hAv : (A : Int) = -a - 1 := Int.toNat_of_nonneg (by omega)
    set r := A % b with hr
    have hrb : r < b := Nat.mod_lt _ hb
    have hcast : ((b - r - 1 : Nat) : Int) = (b : Int) - (r : Int) - 1 := by omega
    rw [hcast]
    have hmod : (A : Int) % b = (r : Int) := by
      rw [hr]; push_cast; rfl
    have hdecomp : (A : Int) = b * ((A : Int) / b) + r := by
      rw [← hmod]; exact (Int.ediv_add_emod _ _).symm
    have hval : a = ((b : Int) - r - 1) + (b : Int) * (-((A : Int) / b) - 1) := by
      rw [mul_sub, mul_neg]
      omega
    rw [hval, Int.add_mul_emod_self_left, Int.emod_eq_of_lt (by omega) (by omega)]

/-- The Euclidean modulus lands strictly below the modulus. -/
theorem euc_mod_lt (a : Int) (b : Nat) (hb : 0 < b) : euc_mod a b < b := by
  unfold euc_mod
  by_cases ha : 0 ≤ a
  · rw [if_pos ha]; exact Nat.mod_lt _ hb
  · rw [if_neg ha]
    have : (-a - 1).toNat % b < b := Nat.mod_lt _ hb
    omega

/-- On an in-range value the Euclidean modulus is the identity. -/
theorem euc_mod_of_lt (v : Nat) (b : Nat) (hv : v < b) : euc_mod (v : Int) b = v := by
  unfold euc_mod
  rw [if_pos (Int.natCast_nonneg v), Int.toNat_natCast]
  exact Nat.mod_eq_of_lt hv

/-- Congruent integers have equal Euclidean modulus. -/
theorem euc_mod_congr (a c : Int) (b : Nat) (hb : 0 < b) (h : a ≡ c [ZMOD (b : Int)]) :
    euc_mod a b = euc_mod c b := by
  have h1 := euc_mod_cast a b hb
  have h2 := euc_mod_cast c b hb
  have : (euc_mod a b : Int) = (euc_mod c b : Int) := by
    rw [h1, h2]; exact h
  exact_mod_cast this

/-! ### The turn_divisible loop -/

theorem turn_divisible_go_spec (dim : Nat) (hd : 0 < dim) :
    ∀ (fuel base : Nat), (dim - base % dim) % dim < fuel →
    turn_divisible_go dim fuel base = base + (dim - base % dim) % dim := by
  intro fuel
  induction fuel with
  | zero => intro base h; omega
  | succ k ih =>
    intro base h
    rw [turn_divisible_go]
    by_cases hz : base % dim = 0
    · rw [if_pos hz, hz, Nat.sub_zero, Nat.mod_self, Nat.add_zero]
    · rw [if_neg hz]
      have hr : base % dim < dim := Nat.mod_lt _ hd
      have hsucc : (base + 1) % dim = (base % dim + 1) % dim := by
        conv_lhs => rw [← Nat.mod_add_mod]
      by_cases hlast : base % dim + 1 = dim
      · have h1 : (dim - base % dim) % dim = 1 := by
          rw [show dim - base % dim = 1 by omega]
          exact Nat.mod_eq_of_lt (by omega)
        have h2 : (base + 1) % dim = 0 := by
          rw [hsucc, hlast, Nat.mod_self]
        have h2b : (dim - (base + 1) % dim) % dim = 0 := by
          rw [h2, Nat.sub_zero, Nat.mod_self]
        rw [ih (base + 1) (by omega), h2b, h1]
      · have h2 : (base + 1) % dim = base % dim + 1 := by
          rw [hsucc]; exact Nat.mod_eq_of_lt (by omega)
        have h3 : (dim - base % dim) % dim = dim - base % dim := Nat.mod_eq_of_lt (by omega)
        have h4 : (dim - (base + 1) % dim) % dim = dim - base % dim - 1 := by
          rw [h2]; exact Nat.mod_eq_of_lt (by omega)
        rw [ih (base + 1) (by omega), h4]
        omega

/-- Closed form of `turn_divisible` for a positive dimension. -/
theorem turn_divisible_eq (target dim : Nat) (hd : 0 < dim) :
    turn_divisible target dim = target + (dim - target % dim) % dim := by
  apply turn_divisible_go_spec dim hd
  have : (dim - target % dim) % dim < dim := Nat.mod_lt _ hd
  omega

/-- The `turn_divisible` loop returns the least multiple of `dim` that is
at least `target`. -/
theorem turn_divisible_spec (target dim : Nat) (hd : 0 < dim) :
    dim ∣ turn_divisible target dim ∧ target ≤ turn_divisible target dim ∧
    ∀ t, dim ∣ t → target ≤ t → turn_divisible target dim ≤ t := by
  rw [turn_divisible_eq target dim hd]
  have hr : target % dim < dim := Nat.mod_lt _ hd
  by_cases hz : target % dim = 0
  · rw [hz, Nat.sub_zero, Nat.mod_self, Nat.add_zero]
    exact ⟨Nat.dvd_of_mod_eq_zero hz, Nat.le_refl _, fun t _ h2 => h2⟩
  · have h3 : (dim - target % dim) % dim = dim - target % dim := Nat.mod_eq_of_lt (by omega)
    rw [h3]
    refine ⟨?_, by omega, ?_⟩
    · have : target + (dim - target % dim) = dim * (target / dim) + dim := by
        have := Nat.div_add_mod target dim
        omega
      rw [this]
      exact ⟨target / dim + 1, by ring⟩
    · intro t ht h2
      obtain ⟨q, hq⟩ := ht
      subst hq
      have hdm := Nat.div_add_mod target dim
      by_contra hcon
      push_neg at hcon
      have h9 : dim * (target / dim + 1) = dim * (target / dim) + dim := by ring
      have h5 : dim * q < dim * (target / dim + 1) := by omega
      have h6 : q < target / dim + 1 := Nat.lt_of_mul_lt_mul_left h5
      have h8 : dim * q ≤ dim * (target / dim) := Nat.mul_le_mul_left dim (by omega)
      omega

/-- Length of a padded text. -/
theorem fill_txt_length (txt : List Char) (c : Char) (a b : Nat) (hab : b ≤ a)
    (hb : txt.length = b) : (fill_txt txt c a b).length = a := by
  unfold fill_txt
  by_cases h : a - b ≠ 0
  · rw [if_pos h]
    simp only [upperStr, List.length_map, List.length_append, List.length_replicate]
    omega
  · rw [if_neg h]
    omega

@[simp] theorem upperStr_length (l : List Char) : (upperStr l).length = l.length :=
  List.length_map l Char.toUpper

/-- A character that is not an ASCII lowercase letter is fixed by
`Char.toUpper`. -/
theorem toUpper_eq_self {c : Char} (h : ¬ c.isLower) : c.toUpper = c := by
  unfold Char.toUpper
  simp only [Char.isLower, Bool.and_eq_true, decide_eq_true_eq, not_and_or] at h
  rw [if_neg]
  simp only [ge_iff_le, not_and_or, not_le]
  unfold Char.toNat
  rcases h with h | h
  · left
    have h2 : ¬ ((97 : UInt32).toNat ≤ c.val.toNat) := h
    have h3 : (97 : UInt32).toNat = 97 := by decide
    omega
  · right
    have h2 : ¬ (c.val.toNat ≤ (122 : UInt32).toNat) := h
    have h3 : (122 : UInt32).toNat = 122 := by decide
    omega

/-! ### List lookup helper lemmas -/

theorem findIdx_lt_of_mem {c : Char} {l : List Char} (h : c ∈ l) :
    l.findIdx (fun x => x == c) < l.length :=
  List.findIdx_lt_length_of_exists ⟨c, h, beq_self_eq_true c⟩

theorem getD_findIdx {l : List Char} {c : Char} (h : c ∈ l) (dflt : Char) :
    l.getD (l.findIdx (fun x => x == c)) dflt = c := by
  have hlt := findIdx_lt_of_mem h
  rw [List.getD_eq_getElem l dflt hlt]
  have h2 := @List.findIdx_getElem _ (fun x => x == c) l hlt
  exact eq_of_beq h2

theorem findIdx_getElem_nodup {l : List Char} (hnd : l.Nodup) (i : Nat) (hi : i < l.length) :
    l.findIdx (fun x => x == l[i]) = i := by
  have hmem : l[i] ∈ l := List.getElem_mem hi
  have hlt := findIdx_lt_of_mem hmem
  have heq : l[l.findIdx (fun x => x == l[i])] = l[i] :=
    eq_of_beq (@List.findIdx_getElem _ (fun x => x == l[i]) l hlt)
  exact (List.Nodup.getElem_inj_iff hnd).mp heq

/-- Character positions of in-namespace characters are in range, for a
namespace unaffected by uppercasing. -/
theorem char_pos_lt {c : Char} {ns : List Char} (h : c.toUpper ∈ ns) :
    char_pos c ns < ns.length :=
  findIdx_lt_of_mem h

theorem getD_char_pos {c : Char} {ns : List Char} (h : c.toUpper ∈ ns) (dflt : Char) :
    ns.getD (char_pos c ns) dflt = c.toUpper :=
  getD_findIdx h dflt

/-! ### Flatten access lemmas -/

theorem flatten_length_const {α : Type} (d : Nat) :
    ∀ (ll : List (List α)), (∀ l ∈ ll, l.length = d) → ll.flatten.length = ll.length * d := by
  intro ll
  induction ll with
  | nil => intro _; simp
  | cons l rest ih =>
    intro h
    simp only [List.flatten_cons, List.length_append, List.length_cons]
    rw [ih (fun x hx => h x (List.mem_cons_of_mem l hx)), h l (List.mem_cons_self l rest)]
    ring

theorem flatten_getD_const {α : Type} (d : Nat) (dflt : α) :
    ∀ (ll : List (List α)), (∀ l ∈ ll, l.length = d) → ∀ (j i : Nat), j < ll.length → i < d →
    ll.flatten.getD (j * d + i) dflt = (ll.getD j []).getD i dflt := by
  intro ll
  induction ll with
  | nil => intro _ j i hj _; simp at hj
  | cons l rest ih =>
    intro h j i hj hi
    have hl : l.length = d := h l (List.mem_cons_self l rest)
    simp only [List.flatten_cons]
    cases j with
    | zero =>
      simp only [Nat.zero_mul, Nat.zero_add]
      rw [List.getD_eq_getElem?_getD, List.getElem?_append,
        if_pos (show i < l.length by omega), ← List.getD_eq_getElem?_getD]
      rfl
    | succ k =>
      have hidx : (k + 1) * d + i = l.length + (k * d + i) := by rw [hl]; ring
      rw [List.getD_eq_getElem?_getD, hidx, List.getElem?_append_right (by omega)]
      simp only [Nat.add_sub_cancel_left]
      rw [← List.getD_eq_getElem?_getD]
      have := ih (fun x hx => h x (List.mem_cons_of_mem l hx)) k i
        (by simpa using Nat.lt_of_succ_lt_succ hj) hi
      rw [this]
      rfl

theorem getD_map_finRange {α : Type} (m : Nat) (f : Fin m → α) (j : Nat) (hj : j < m)
    (dflt : α) : ((List.finRange m).map f).getD j dflt = f ⟨j, hj⟩ := by
  have hlen : j < ((List.finRange m).map f).length := by
    rw [List.length_map, List.length_finRange]; exact hj
  rw [List.getD_eq_getElem _ _ hlen, List.getElem_map]
  congr 1
  rw [List.getElem_finRange]
  rfl

/-! ### Properties of the text renderer -/

theorem translate_blocks_length {d m : Nat} (K : Matrix (Fin d) (Fin d) Int)
    (S : Matrix (Fin d) (Fin m) Int) (ns : List Char) :
    ∀ bl ∈ (List.finRange m).map fun j =>
      (List.finRange d).map fun i => ns.getD (euc_mod ((K * S) i j) ns.length) 'A',
      bl.length = d := by
  intro bl hbl
  obtain ⟨j, _, rfl⟩ := List.mem_map.mp hbl
  rw [List.length_map, List.length_finRange]

/-- The rendered text of a `d × m` result matrix has length `m * d`. -/
theorem translate_length {d m : Nat} (K : Matrix (Fin d) (Fin d) Int)
    (S : Matrix (Fin d) (Fin m) Int) (ns : List Char) :
    (translate_txt_mtrx K S ns).length = m * d := by
  unfold translate_txt_mtrx
  rw [flatten_length_const d _ (translate_blocks_length K S ns), List.length_map,
    List.length_finRange]

/-- Character `j * d + i` of the rendered text is the namespace symbol of the
reduced cell `(i, j)` of the result matrix. -/
theorem translate_getD {d m : Nat} (K : Matrix (Fin d) (Fin d) Int)
    (S : Matrix (Fin d) (Fin m) Int) (ns : List Char) (j i : Nat)
    (hj : j < m) (hi : i < d) :
    (translate_txt_mtrx K S ns).getD (j * d + i) 'A' =
      ns.getD (euc_mod ((K * S) ⟨i, hi⟩ ⟨j, hj⟩) ns.length) 'A' := by
  unfold translate_txt_mtrx
  rw [flatten_getD_const d 'A' _ (translate_blocks_length K S ns) j i
    (by rw [List.length_map, List.length_finRange]; exact hj) hi]
  rw [getD_map_finRange m _ j hj]
  rw [getD_map_finRange d _ i hi]

/-- Every character of the rendered text is a namespace symbol. -/
theorem translate_mem {d m : Nat} (K : Matrix (Fin d) (Fin d) Int)
    (S : Matrix (Fin d) (Fin m) Int) (ns : List Char) (hns : 0 < ns.length) :
    ∀ c ∈ translate_txt_mtrx K S ns, c ∈ ns := by
  intro c hc
  unfold translate_txt_mtrx at hc
  obtain ⟨bl, hbl, hcbl⟩ := List.mem_flatten.mp hc
  obtain ⟨j, _, rfl⟩ := List.mem_map.mp hbl
  obtain ⟨i, _, rfl⟩ := List.mem_map.mp hcbl
  have hlt := euc_mod_lt ((K * S) i j) ns.length hns
  rw [List.getD_eq_getElem _ _ hlt]
  exact List.getElem_mem hlt

/-! ### Characterizations of the validation functions -/

theorem is_in_namespace_ok_iff {c : Char} {ns : List Char} :
    is_in_namespace c ns = .ok () ↔ c ∈ ns := by
  unfold is_in_namespace
  by_cases h : c ∈ ns
  · simp [h]
  · simp [h]

theorem check_chars_ok_iff {l ns : List Char} :
    check_chars l ns = .ok () ↔ ∀ c ∈ l, c ∈ ns := by
  induction l with
  | nil => simp [check_chars]
  | cons c rest ih =>
    unfold check_chars
    by_cases h : c ∈ ns
    · rw [show is_in_namespace c ns = .ok () from is_in_namespace_ok_iff.mpr h]
      simp [h, ih]
    · rw [show is_in_namespace c ns = .err "the character is not present in the namespace" by
        unfold is_in_namespace; rw [if_neg h]]
      simp [h]

theorem check_chars_never_panics (l ns : List Char) :
    check_chars l ns = .ok () ∨ ∃ m, check_chars l ns = .err m := by
  induction l with
  | nil => left; rfl
  | cons c rest ih =>
    unfold check_chars
    by_cases h : c ∈ ns
    · rw [show is_in_namespace c ns = .ok () from is_in_namespace_ok_iff.mpr h]
      simpa using ih
    · rw [show is_in_namespace c ns = .err "the character is not present in the namespace" by
        unfold is_in_namespace; rw [if_neg h]]
      right; exact ⟨_, rfl⟩

theorem check_information_ok_iff {p : Processor} {ns : List Char} :
    check_information p ns = .ok () ↔
      is_square p.key.length = true ∧
      (∀ f, p.fill_letter = some f → f ∈ ns) ∧
      (∀ c ∈ p.key, c ∈ ns) ∧ (∀ c ∈ p.source, c ∈ ns) := by
  unfold check_information
  by_cases hsq : is_square p.key.length
  · rw [if_neg (by simpa using hsq)]
    have hfill : (check_fill p.fill_letter ns = .ok () ↔
        ∀ f, p.fill_letter = some f → f ∈ ns) ∧
        (check_fill p.fill_letter ns = .ok () ∨
          ∃ m, check_fill p.fill_letter ns = .err m) := by
      cases hf : p.fill_letter with
      | none => simp [check_fill]
      | some f =>
        simp only [check_fill]
        by_cases hfin : f ∈ ns
        · rw [show is_in_namespace f ns = .ok () from is_in_namespace_ok_iff.mpr hfin]
          simp [hfin]
        · rw [show is_in_namespace f ns =
              .err "the character is not present in the namespace" by
            unfold is_in_namespace; rw [if_neg hfin]]
          constructor
          · constructor
            · intro h; cases h
            · intro h; exact absurd (h f rfl) hfin
          · right; exact ⟨_, rfl⟩
    rcases hfill.2 with hfo | ⟨m, hfe⟩
    · rw [hfo, Outcome.bind_ok]
      rcases check_chars_never_panics p.key ns with hk | ⟨mk, hk⟩
      · rw [hk, Outcome.bind_ok]
        constructor
        · intro h
          exact ⟨hsq, hfill.1.mp hfo, check_chars_ok_iff.mp hk, check_chars_ok_iff.mp h⟩
        · rintro ⟨-, -, -, hsc⟩
          exact check_chars_ok_iff.mpr hsc
      · rw [hk, Outcome.bind_err]
        constructor
        · intro h; cases h
        · rintro ⟨-, -, hkc, -⟩
          rw [check_chars_ok_iff.mpr hkc] at hk
          cases hk
    · rw [hfe, Outcome.bind_err]
      constructor
      · intro h; cases h
      · rintro ⟨-, hflm, -, -⟩
        rw [hfill.1.mpr hflm] at hfe
        cases hfe
  · rw [if_pos (by simpa using hsq)]
    constructor
    · intro h; cases h
    · rintro ⟨h1, -⟩; exact absurd h1 (by simpa using hsq)

/-- The factor loop accepts any positive `target ≥ number` and rejects any
positive `target < number`: `target` divides itself, and a larger factor
cannot divide `target`. -/
theorem has_any_factor_iff {t n : Nat} :
    has_any_factor t n = true ↔ t < n := by
  unfold has_any_factor
  constructor
  · intro h
    obtain ⟨f, hf, hdvd⟩ := List.any_eq_true.mp h
    rw [List.mem_range'_1] at hf
    omega
  · intro h
    refine List.any_eq_true.mpr ⟨t, ?_, ?_⟩
    · rw [List.mem_range'_1]; omega
    · simp [Nat.mod_self]

/-- The key-validity check characterized: it passes exactly for a non-zero
determinant whose crate-level modular inverse exists and whose absolute value
is at least the namespace size. -/
theorem check_key_ok_iff {det : Int} {ns_len : Nat} :
    check_key_mtrx_validness det ns_len = .ok () ↔
      det ≠ 0 ∧ (modinverse det (ns_len : Int)).isSome = true ∧ ns_len ≤ det.natAbs := by
  unfold check_key_mtrx_validness
  by_cases hcond : det = 0 ∨ modinverse det (ns_len : Int) = none ∨
      has_any_factor det.natAbs ns_len
  · rw [if_pos hcond]
    constructor
    · intro h; cases h
    · rintro ⟨h1, h2, h3⟩
      rcases hcond with hc | hc | hc
      · exact absurd hc h1
      · rw [hc] at h2; cases h2
      · have := has_any_factor_iff.mp hc
        omega
  · rw [if_neg hcond]
    push_neg at hcond
    obtain ⟨h1, h2, h3⟩ := hcond
    refine iff_of_true rfl ⟨h1, ?_, ?_⟩
    · rcases hmv : modinverse det (ns_len : Int) with _ | v
      · exact absurd hmv h2
      · rfl
    · have : ¬ (det.natAbs < ns_len) := fun hlt =>
        (Bool.eq_false_iff.mp (Bool.not_eq_true _ |>.mp h3)) (has_any_factor_iff.mpr hlt)
      omega

/-! ### Modular congruence for matrix products -/

theorem sum_modEq {ι : Type} (s : Finset ι) (f g : ι → Int) (n : Int)
    (h : ∀ k ∈ s, f k ≡ g k [ZMOD n]) :
    (∑ k ∈ s, f k) ≡ (∑ k ∈ s, g k) [ZMOD n] := by
  classical
  induction s using Finset.induction_on with
  | empty => simp [Int.ModEq.refl]
  | insert hx ih =>
    rw [Finset.sum_insert hx, Finset.sum_insert hx]
    exact Int.ModEq.add (h _ (Finset.mem_insert_self _ _))
      (ih fun k hk => h k (Finset.mem_insert_of_mem hk))

/-- Multiplying by a fixed matrix preserves entrywise congruence. -/
theorem mul_entry_modEq {r d m : Nat} (D : Matrix (Fin r) (Fin d) Int)
    (C C2 : Matrix (Fin d) (Fin m) Int) (n : Int)
    (h : ∀ i j, C i j ≡ C2 i j [ZMOD n]) (i : Fin r) (j : Fin m) :
    (D * C) i j ≡ (D * C2) i j [ZMOD n] := by
  rw [Matrix.mul_apply, Matrix.mul_apply]
  exact sum_modEq _ _ _ n fun k _ => Int.ModEq.mul_left _ (h k j)

/-! ### The decipher scaling step -/

set_option maxHeartbeats 2000000 in
/-- The faithful real-inverse scaling `round((K⁻¹[i,j] * m) * det)` and the
exact integer form `m * adj(K)[i,j]` agree: `K⁻¹ = adj(K) / det`. -/
theorem decipher_eq_decipherInt (p : Processor) : decipher p = decipherInt p := by
  unfold decipher decipherInt
  congr 1
  funext ns
  congr 1
  funext u
  congr 1
  funext key_mtrx
  by_cases hdet : key_mtrx.det = 0
  · rw [if_pos hdet, if_pos hdet]
  · rw [if_neg hdet, if_neg hdet]
    congr 1
    funext u2
    congr 1
    funext mmi
    by_cases hdim : isqrt p.key.length = 0
    · rw [if_pos hdim, if_pos hdim]
    · rw [if_neg hdim, if_neg hdim]
      congr 1
      funext src_mtrx
      have hmat : (Matrix.of fun i j =>
          round ((((((key_mtrx.map (Int.cast : Int → Rat)).det)⁻¹ •
            (key_mtrx.map (Int.cast : Int → Rat)).adjugate) i j) * (mmi : Rat)) *
            (key_mtrx.det : Rat))) =
          (Matrix.of fun i j => (mmi : Int) * key_mtrx.adjugate i j) := by
        funext i j
        simp only [Matrix.of_apply, Matrix.smul_apply, smul_eq_mul]
        have hdq : ((key_mtrx.det : Int) : Rat) ≠ 0 := by
          exact_mod_cast hdet
        have hmapdet : (key_mtrx.map (Int.cast : Int → Rat)).det =
            ((key_mtrx.det : Int) : Rat) := by
          rw [show key_mtrx.map (Int.cast : Int → Rat) =
            (Int.castRingHom Rat).mapMatrix key_mtrx from rfl,
            ← RingHom.map_det]
          rfl
        have hmapadj : (key_mtrx.map (Int.cast : Int → Rat)).adjugate i j =
            ((key_mtrx.adjugate i j : Int) : Rat) := by
          rw [show key_mtrx.map (Int.cast : Int → Rat) =
            (Int.castRingHom Rat).mapMatrix key_mtrx from rfl,
            ← RingHom.map_adjugate]
          rfl
        rw [hmapdet, hmapadj]
        rw [show ((key_mtrx.det : Rat))⁻¹ * ((key_mtrx.adjugate i j : Int) : Rat) *
            (mmi : Rat) * (key_mtrx.det : Rat) =
            ((key_mtrx.adjugate i j : Int) : Rat) * (mmi : Rat) *
            ((key_mtrx.det : Rat) * ((key_mtrx.det : Rat))⁻¹) by ring,
          mul_inv_cancel₀ hdq, mul_one]
        rw [show ((key_mtrx.adjugate i j : Int) : Rat) * (mmi : Rat) =
            ((key_mtrx.adjugate i j * mmi : Int) : Rat) by push_cast; ring]
        rw [round_intCast]
        ring
      rw [hmat]

/-! ### Text-to-matrix conversion lemmas -/

theorem txt_mtrx_repr_ok {rows cols : Nat} {src ns : List Char}
    (h1 : ∀ c ∈ src, c.toUpper ∈ ns) (h2 : src.length = rows * cols) :
    txt_mtrx_repr rows cols src ns =
      .ok (Matrix.of fun i j => (char_pos (src.getD (j.1 * cols + i.1) 'A') ns : Int)) := by
  unfold txt_mtrx_repr
  rw [if_pos ⟨h1, h2⟩]

theorem txt_mtrx_repr_panic_of_len {rows cols : Nat} {src ns : List Char}
    (h2 : src.length ≠ rows * cols) :
    txt_mtrx_repr rows cols src ns = .panic := by
  unfold txt_mtrx_repr
  rw [if_neg (fun hc => h2 hc.2)]

/-! ### Padding-step lemmas -/

theorem pad_step_divisible {source : List Char} {fill : Option Char} {d : Nat}
    (h : source.length % d = 0) :
    pad_step source fill d = .ok (upperStr source, false) := by
  unfold pad_step
  rw [if_neg]
  simp [is_divisble, h]

theorem pad_step_not_divisible {source : List Char} {f : Char} {d : Nat}
    (h : source.length % d ≠ 0) :
    pad_step source (some f) d =
      .ok (fill_txt source f (turn_divisible source.length d) source.length, true) := by
  unfold pad_step
  rw [if_pos]
  simp [is_divisble, h]

/-- Whatever the padding step returns has length divisible by the dimension. -/
theorem pad_step_length_dvd {source : List Char} {fill : Option Char} {d : Nat}
    (hd : 0 < d) {st : List Char × Bool} (h : pad_step source fill d = .ok st) :
    d ∣ st.1.length := by
  unfold pad_step at h
  by_cases hdiv : source.length % d = 0
  · rw [if_neg (by simp [is_divisble, hdiv])] at h
    cases h
    simpa using Nat.dvd_of_mod_eq_zero hdiv
  · rw [if_pos (by simp [is_divisble, hdiv])] at h
    cases hf : fill with
    | none => rw [hf] at h; cases h
    | some f =>
      rw [hf] at h
      cases h
      obtain ⟨hdvd, hge, -⟩ := turn_divisible_spec source.length d hd
      simpa [fill_txt_length source f _ _ hge rfl] using hdvd

/-- Uppercasing is the identity on a text without ASCII lowercase letters. -/
theorem upperStr_eq_self {l : List Char} (h : ∀ c ∈ l, ¬ c.isLower) :
    upperStr l = l := by
  unfold upperStr
  induction l with
  | nil => rfl
  | cons c rest ih =>
    rw [List.map_cons, toUpper_eq_self (h c (List.mem_cons_self c rest)),
      ih fun x hx => h x (List.mem_cons_of_mem c hx)]

/-! ### Further helper lemmas for the claims -/

theorem isqrt_zero : isqrt 0 = 0 := rfl

theorem euc_mod_modEq (a : Int) (b : Nat) (hb : 0 < b) :
    (euc_mod a b : Int) ≡ a [ZMOD (b : Int)] := by
  show (euc_mod a b : Int) % (b : Int) = a % (b : Int)
  rw [euc_mod_cast a b hb]
  exact Int.emod_emod_of_dvd a dvd_rfl

theorem check_fill_ok {fill : Option Char} {ns : List Char}
    (h : ∀ f, fill = some f → f ∈ ns) : check_fill fill ns = .ok () := by
  cases fill with
  | none => rfl
  | some f =>
    show is_in_namespace f ns = .ok ()
    exact is_in_namespace_ok_iff.mpr (h f rfl)

theorem txt_mtrx_repr_ok_inv {rows cols : Nat} {src ns : List Char}
    {M : Matrix (Fin cols) (Fin rows) Int}
    (h : txt_mtrx_repr rows cols src ns = .ok M) :
    (∀ c ∈ src, c.toUpper ∈ ns) ∧ src.length = rows * cols ∧
      M = Matrix.of fun i j => (char_pos (src.getD (j.1 * cols + i.1) 'A') ns : Int) := by
  unfold txt_mtrx_repr at h
  by_cases hc : (∀ c ∈ src, c.toUpper ∈ ns) ∧ src.length = rows * cols
  · rw [if_pos hc] at h
    cases h
    exact ⟨hc.1, hc.2, rfl⟩
  · rw [if_neg hc] at h
    cases h

/-- The characters the padding step produces all belong to the namespace,
whenever the source and the fill letter do and the namespace has no
lowercase letters. -/
theorem pad_step_mem {source : List Char} {fill : Option Char} {d : Nat}
    {ns : List Char} {st : List Char × Bool}
    (hsrc : ∀ c ∈ source, c ∈ ns) (hfill : ∀ f, fill = some f → f ∈ ns)
    (hupper : ∀ c ∈ ns, ¬ c.isLower)
    (hpad : pad_step source fill d = .ok st) : ∀ c ∈ st.1, c ∈ ns := by
  unfold pad_step at hpad
  by_cases hdiv : source.length % d = 0
  · rw [if_neg (by simp [is_divisble, hdiv])] at hpad
    cases hpad
    intro c hc
    rw [upperStr_eq_self (fun x hx => hupper x (hsrc x hx))] at hc
    exact hsrc c hc
  · rw [if_pos (by simp [is_divisble, hdiv])] at hpad
    cases hf : fill with
    | none => rw [hf] at hpad; cases hpad
    | some f =>
      rw [hf] at hpad
      cases hpad
      intro c hc
      simp only [fill_txt] at hc
      by_cases hreps : turn_divisible source.length d - source.length ≠ 0
      · rw [if_pos hreps] at hc
        have hall : ∀ x ∈ source ++ List.replicate
            (turn_divisible source.length d - source.length) f, x ∈ ns := by
          intro x hx
          rcases List.mem_append.mp hx with hx | hx
          · exact hsrc x hx
          · rw [List.eq_of_mem_replicate hx]
            exact hfill f hf
        rw [upperStr_eq_self (fun x hx => hupper x (hall x hx))] at hc
        exact hall c hc
      · rw [if_neg hreps] at hc
        exact hsrc c hc

/-- The exact form of the padding step's successful result. -/
theorem pad_step_ok_inv {source : List Char} {fill : Option Char} {d : Nat}
    {st : List Char × Bool} (hpad : pad_step source fill d = .ok st) :
    (source.length % d = 0 ∧ st = (upperStr source, false)) ∨
    (source.length % d ≠ 0 ∧ ∃ f, fill = some f ∧
      st = (fill_txt source f (turn_divisible source.length d) source.length, true)) := by
  unfold pad_step at hpad
  by_cases hdiv : source.length % d = 0
  · rw [if_neg (by simp [is_divisble, hdiv])] at hpad
    cases hpad
    exact Or.inl ⟨hdiv, rfl⟩
  · rw [if_pos (by simp [is_divisble, hdiv])] at hpad
    cases hf : fill with
    | none => rw [hf] at hpad; cases hpad
    | some f =>
      rw [hf] at hpad
      cases hpad
      exact Or.inr ⟨hdiv, f, rfl, rfl⟩

/-- Any successful decipher run reports `filled = false`. -/
theorem decipher_ok_filled {p : Processor} {r : Report}
    (h : decipher p = .ok r) : r.filled = false := by
  unfold decipher at h
  cases hns : def_namespace p.nspace with
  | err m => rw [hns] at h; cases h
  | panic => rw [hns] at h; cases h
  | ok ns =>
    rw [hns, Outcome.bind_ok] at h
    cases hci : check_information p ns with
    | err m => rw [hci] at h; cases h
    | panic => rw [hci] at h; cases h
    | ok u =>
      rw [hci, Outcome.bind_ok] at h
      cases htx : txt_mtrx_repr (isqrt p.key.length) (isqrt p.key.length) p.key ns with
      | err m => rw [htx] at h; cases h
      | panic => rw [htx] at h; cases h
      | ok K =>
        rw [htx, Outcome.bind_ok] at h
        by_cases hdet : K.det = 0
        · rw [if_pos hdet] at h; cases h
        · rw [if_neg hdet] at h
          cases hck : check_key_mtrx_validness K.det ns.length with
          | err m => rw [hck] at h; cases h
          | panic => rw [hck] at h; cases h
          | ok u2 =>
            rw [hck, Outcome.bind_ok] at h
            cases hmv : modinverse K.det (ns.length : Int) with
            | none => rw [hmv] at h; cases h
            | some mmi =>
              rw [hmv, unwrapO_some, Outcome.bind_ok] at h
              by_cases hdim : isqrt p.key.length = 0
              · rw [if_pos hdim] at h; cases h
              · rw [if_neg hdim] at h
                cases hts : txt_mtrx_repr (p.source.length / isqrt p.key.length)
                    (isqrt p.key.length) p.source ns with
                | err m => rw [hts] at h; cases h
                | panic => rw [hts] at h; cases h
                | ok S =>
                  rw [hts, Outcome.bind_ok] at h
                  cases h
                  rfl

/-- The regex-modelled detector found a duplicate exactly when two equal
characters (other than newline) sit in adjacent positions. -/
theorem hasAdjacentDup_iff : ∀ (ns : List Char), hasAdjacentDup ns = true ↔
    ∃ i, i + 1 < ns.length ∧ ns.getD i 'A' = ns.getD (i + 1) 'A' ∧ ns.getD i 'A' ≠ '\n' := by
  intro ns
  induction ns with
  | nil =>
    simp only [hasAdjacentDup, List.length_nil]
    constructor
    · intro h; cases h
    · rintro ⟨i, hi, -⟩; omega
  | cons c1 tail ih =>
    cases tail with
    | nil =>
      simp only [hasAdjacentDup, List.length_cons, List.length_nil]
      constructor
      · intro h; cases h
      · rintro ⟨i, hi, -⟩; omega
    | cons c2 rest =>
      rw [show hasAdjacentDup (c1 :: c2 :: rest) =
        ((c1 != '\n' && c1 == c2) || hasAdjacentDup (c2 :: rest)) from rfl]
      rw [Bool.or_eq_true, Bool.and_eq_true, bne_iff_ne, beq_iff_eq, ih]
      constructor
      · rintro (⟨hne, heq⟩ | ⟨i, hi, heq, hne⟩)
        · refine ⟨0, ?_, ?_, ?_⟩
          · simp only [List.length_cons]; omega
          · simpa [List.getD_cons_zero, List.getD_cons_succ] using heq
          · simpa [List.getD_cons_zero] using hne
        · refine ⟨i + 1, ?_, ?_, ?_⟩
          · simp only [List.length_cons] at hi ⊢; omega
          · simpa [List.getD_cons_succ] using heq
          · simpa [List.getD_cons_succ] using hne
      · rintro ⟨i, hi, heq, hne⟩
        cases i with
        | zero =>
          left
          rw [List.getD_cons_zero] at heq hne
          rw [List.getD_cons_succ, List.getD_cons_zero] at heq
          exact ⟨hne, heq⟩
        | succ k =>
          right
          rw [List.getD_cons_succ] at heq hne
          rw [List.getD_cons_succ] at heq
          refine ⟨k, ?_, heq, hne⟩
          simp only [List.length_cons] at hi ⊢
          omega

/-! ### Claim C2 -/

/-- Claim C2, counterexample: the determinant 1 is non-zero and coprime with
the namespace size 26 (its modular inverse exists), yet the key validity
check rejects it — so rejection is not equivalent to `det = 0 ∨ gcd ≠ 1`. -/
theorem claim_C2_counterexample :
    (1 : Int) ≠ 0 ∧ Int.gcd 1 26 = 1 ∧ (modinverse 1 26).isSome = true ∧
      check_key_mtrx_validness 1 26 = .err "the specified key cannot be used" := by
  refine ⟨by decide, by decide, by decide, by decide⟩

/-- Claim C2, amended: the key validity check accepts a determinant exactly
when it is non-zero, the `modinverse` crate finds a modular multiplicative
inverse modulo the namespace size, and additionally `|det| ≥ N` — the
`has_any_factor` range check also rejects every determinant with
`0 < |det| < N`, coprime or not. -/
theorem claim_C2 (det : Int) (N : Nat) :
    check_key_mtrx_validness det N = .ok () ↔
      det ≠ 0 ∧ (modinverse det (N : Int)).isSome = true ∧ N ≤ det.natAbs :=
  check_key_ok_iff

/-! ### Claim C3 -/

/-- Claim C3, counterexample: the namespace `"ABAC"` contains the symbol
`'A'` twice at non-adjacent positions, yet namespace resolution accepts it
and a full cipher run completes without any `ProcessingError`. -/
theorem claim_C3_counterexample :
    ¬ (['A', 'B', 'A', 'C'].Nodup) ∧
      def_namespace (some ['A', 'B', 'A', 'C']) = .ok ['A', 'B', 'A', 'C'] ∧
      cipher ⟨['C', 'A', 'A', 'C'], ['A', 'B'], some 'A', some ['A', 'B', 'A', 'C']⟩ =
        .ok ⟨['C', 'A', 'A', 'C'], ['A', 'B'], some 'A', ['A', 'C'], false,
             some ['A', 'B', 'A', 'C']⟩ := by
  refine ⟨by decide, by decide, by decide⟩

/-- Claim C3, amended: resolution of a custom namespace fails exactly when
two equal symbols other than newline occupy adjacent positions (the regex
`(.)\1{1,}` sees only consecutive repeats) or the length is not a perfect
square; non-adjacent duplicates are accepted. -/
theorem claim_C3 (ns : List Char) :
    (∃ msg, def_namespace (some ns) = .err msg) ↔
      ((∃ i, i + 1 < ns.length ∧ ns.getD i 'A' = ns.getD (i + 1) 'A' ∧
        ns.getD i 'A' ≠ '\n') ∨ is_square ns.length = false) := by
  show (∃ msg, (check_namespace ns).bind (fun _ =>
    if ¬ is_square ns.length then
      (.err "the supplied namespace must be square in length" : Outcome (List Char))
    else .ok ns) = .err msg) ↔ _
  unfold check_namespace
  by_cases hdup : hasAdjacentDup ns
  · rw [if_pos hdup]
    exact iff_of_true ⟨_, rfl⟩ (Or.inl ((hasAdjacentDup_iff ns).mp hdup))
  · rw [if_neg hdup, Outcome.bind_ok]
    by_cases hsq : is_square ns.length
    · rw [if_neg (by simpa using hsq)]
      refine iff_of_false ?_ ?_
      · rintro ⟨msg, hmsg⟩; cases hmsg
      · rintro (hdups | hsqf)
        · exact hdup ((hasAdjacentDup_iff ns).mpr hdups)
        · rw [hsq] at hsqf; cases hsqf
    · rw [if_pos (by simpa using hsq)]
      exact iff_of_true ⟨_, rfl⟩ (Or.inr (by simpa using hsq))

/-! ### Claim C6 -/

/-- Claim C6: the Euclidean modulus of any integer (negative values
included) by a positive namespace size lands in `[0, N)` and is congruent to
the input, and consequently every cell rendered by `translate_txt_mtrx`
is a symbol of the namespace — rendering never indexes out of bounds. -/
theorem claim_C6 :
    (∀ (a : Int) (N : Nat), 0 < N → euc_mod a N < N ∧
      (euc_mod a N : Int) % (N : Int) = a % (N : Int)) ∧
    (∀ (d m : Nat) (K : Matrix (Fin d) (Fin d) Int) (S : Matrix (Fin d) (Fin m) Int)
      (ns : List Char), 0 < ns.length → ∀ c ∈ translate_txt_mtrx K S ns, c ∈ ns) := by
  constructor
  · intro a N hN
    exact ⟨euc_mod_lt a N hN, euc_mod_modEq a N hN⟩
  · intro d m K S ns hns
    exact translate_mem K S ns hns

/-- Claim C6, witness at `a = -100`, `N = 26`. -/
theorem claim_C6_witness :
    (0 < 26 ∧ euc_mod (-100) 26 < 26 ∧
      (euc_mod (-100) 26 : Int) % (26 : Int) = (-100) % (26 : Int)) ∧
    (0 < DEFAULT_NAMESPACE.length ∧
      ∀ c ∈ translate_txt_mtrx (Matrix.of fun _ _ => (3 : Int))
        (Matrix.of fun (_ : Fin 1) (_ : Fin 1) => (-7 : Int)) DEFAULT_NAMESPACE,
        c ∈ DEFAULT_NAMESPACE) := by
  constructor
  · exact ⟨by decide, (claim_C6.1 (-100) 26 (by decide)).1, (claim_C6.1 (-100) 26 (by decide)).2⟩
  · exact ⟨by decide, claim_C6.2 1 1 _ _ DEFAULT_NAMESPACE (by decide)⟩

/-! ### Claim C9 -/

/-- Claim C9: the processor is deterministic — cipher and decipher are pure
functions of the four inputs (key, source, fill letter, namespace), so two
invocations with equal inputs yield equal outcomes. -/
theorem claim_C9 (p q : Processor) (hk : p.key = q.key) (hs : p.source = q.source)
    (hf : p.fill_letter = q.fill_letter) (hn : p.nspace = q.nspace) :
    cipher p = cipher q ∧ decipher p = decipher q := by
  have hpq : p = q := by
    cases p; cases q
    simp only at hk hs hf hn
    simp [hk, hs, hf, hn]
  rw [hpq]
  exact ⟨rfl, rfl⟩

/-- Claim C9, witness: two invocations on the literal scenario inputs. -/
theorem claim_C9_witness :
    cipher ⟨['F', 'J', 'C', 'R', 'X', 'L', 'U', 'D', 'N'], ['C', 'O', 'D', 'I', 'G', 'O'],
        some 'H', none⟩ =
      cipher ⟨['F', 'J', 'C', 'R', 'X', 'L', 'U', 'D', 'N'], ['C', 'O', 'D', 'I', 'G', 'O'],
        some 'H', none⟩ ∧
    decipher ⟨['F', 'J', 'C', 'R', 'X', 'L', 'U', 'D', 'N'], ['W', 'L', 'P', 'G', 'S', 'E'],
        some 'H', none⟩ =
      decipher ⟨['F', 'J', 'C', 'R', 'X', 'L', 'U', 'D', 'N'], ['W', 'L', 'P', 'G', 'S', 'E'],
        some 'H', none⟩ := by
  constructor
  · exact (claim_C9 _ _ rfl rfl rfl rfl).1
  · exact (claim_C9 _ _ rfl rfl rfl rfl).2

/-! ### Claim C10 -/

/-- Claim C10: whenever the key-validity check succeeds, the modular
multiplicative inverse of the determinant modulo the namespace size exists,
so the unguarded `unwrap` of `modinverse(det, N)` in decipher cannot fail. -/
theorem claim_C10 (det : Int) (N : Nat)
    (h : check_key_mtrx_validness det N = .ok ()) :
    (modinverse det (N : Int)).isSome = true :=
  (check_key_ok_iff.mp h).2.1

/-- Claim C10, witness at the literal scenario's determinant 503 and the
default namespace size 26. -/
theorem claim_C10_witness :
    check_key_mtrx_validness 503 26 = .ok () ∧
      (modinverse 503 (26 : Int)).isSome = true :=
  ⟨by decide, claim_C10 503 26 (by decide)⟩

/-! ### Claim C4 -/

/-- Claim C4, counterexample: with the valid key `"FJCRXLUDN"` (d = 3) and
the five-character source `"WLPGS"`, decipher panics — the matrix
constructor's length assertion fires — instead of returning a
`ProcessingError`. -/
theorem claim_C4_counterexample :
    ¬ ((3 : Nat) ∣ 5) ∧
      decipher ⟨['F', 'J', 'C', 'R', 'X', 'L', 'U', 'D', 'N'], ['W', 'L', 'P', 'G', 'S'],
        some 'H', none⟩ = .panic := by
  refine ⟨by decide, by decide⟩

/-- Claim C4, amended: when the inputs pass every validation (namespace
resolved, information checked, key matrix built with usable determinant) but
the source length is not a multiple of the key dimension `d ≥ 1`, decipher
panics — the model of `rulinalg`'s `Matrix::new` length assertion — rather
than returning a shape `ProcessingError`. -/
theorem claim_C4 (p : Processor) (ns : List Char)
    (K : Matrix (Fin (isqrt p.key.length)) (Fin (isqrt p.key.length)) Int)
    (hns : def_namespace p.nspace = .ok ns)
    (hci : check_information p ns = .ok ())
    (hd : 0 < isqrt p.key.length)
    (hkey : txt_mtrx_repr (isqrt p.key.length) (isqrt p.key.length) p.key ns = .ok K)
    (hdet : K.det ≠ 0)
    (hck : check_key_mtrx_validness K.det ns.length = .ok ())
    (hlen : ¬ (isqrt p.key.length ∣ p.source.length)) :
    decipher p = .panic := by
  unfold decipher
  rw [hns, Outcome.bind_ok, hci, Outcome.bind_ok, hkey, Outcome.bind_ok, if_neg hdet,
    hck, Outcome.bind_ok]
  obtain ⟨mmi, hmmi⟩ := Option.isSome_iff_exists.mp (check_key_ok_iff.mp hck).2.1
  rw [hmmi, unwrapO_some, Outcome.bind_ok, if_neg (by omega)]
  have hne : p.source.length ≠
      p.source.length / isqrt p.key.length * isqrt p.key.length := by
    intro heq
    exact hlen ⟨p.source.length / isqrt p.key.length,
      heq.trans (Nat.mul_comm _ _)⟩
  rw [txt_mtrx_repr_panic_of_len hne, Outcome.bind_panic]

/-- Claim C4, witness at key `"ZDBE"` (d = 2) and source `"ABC"`. -/
theorem claim_C4_witness :
    def_namespace none = .ok DEFAULT_NAMESPACE ∧
    check_information ⟨['Z', 'D', 'B', 'E'], ['A', 'B', 'C'], some 'H', none⟩
      DEFAULT_NAMESPACE = .ok () ∧
    0 < isqrt 4 ∧
    txt_mtrx_repr 2 2 ['Z', 'D', 'B', 'E'] DEFAULT_NAMESPACE =
      .ok (Matrix.of fun i j =>
        (char_pos (['Z', 'D', 'B', 'E'].getD (j.1 * 2 + i.1) 'A') DEFAULT_NAMESPACE : Int)) ∧
    ¬ ((2 : Nat) ∣ 3) ∧
    decipher ⟨['Z', 'D', 'B', 'E'], ['A', 'B', 'C'], some 'H', none⟩ = .panic := by
  refine ⟨by decide, by decide, by decide, by decide, by decide, ?_⟩
  exact claim_C4 ⟨['Z', 'D', 'B', 'E'], ['A', 'B', 'C'], some 'H', none⟩ DEFAULT_NAMESPACE
    (Matrix.of fun i j =>
      (char_pos (['Z', 'D', 'B', 'E'].getD (j.1 * 2 + i.1) 'A') DEFAULT_NAMESPACE : Int))
    (by decide) (by decide) (by decide) (by decide) (by decide) (by decide) (by decide)

/-! ### Claim C5 -/

/-- Claim C5: the padding policy. For `d ≥ 1`: a text whose length is
divisible by `d` is passed through uppercased with `was_padded = false`;
otherwise the fill letter is appended exactly `t - len` times, where `t`
(computed by `turn_divisible`) is the smallest multiple of `d` at least
`len`, the result is uppercased and `was_padded = true`. Decipher never pads
and every successful decipher reports `filled = false`. -/
theorem claim_C5 (source : List Char) (fill : Char) (d : Nat) (hd : 0 < d) :
    (d ∣ source.length → pad_step source (some fill) d = .ok (upperStr source, false)) ∧
    (¬ d ∣ source.length →
      pad_step source (some fill) d = .ok
        (upperStr (source ++ List.replicate
          (turn_divisible source.length d - source.length) fill), true) ∧
      d ∣ turn_divisible source.length d ∧
      source.length ≤ turn_divisible source.length d ∧
      (∀ t, d ∣ t → source.length ≤ t → turn_divisible source.length d ≤ t)) ∧
    (∀ (p : Processor) (r : Report), decipher p = .ok r → r.filled = false) := by
  obtain ⟨hdvd, hge, hleast⟩ := turn_divisible_spec source.length d hd
  refine ⟨?_, ?_, fun p r h => decipher_ok_filled h⟩
  · intro h
    exact pad_step_divisible (Nat.dvd_iff_mod_eq_zero.mp h)
  · intro h
    have hmod : source.length % d ≠ 0 := fun hz => h (Nat.dvd_of_mod_eq_zero hz)
    have hlt : source.length < turn_divisible source.length d := by
      rcases Nat.lt_or_ge source.length (turn_divisible source.length d) with hlt | hge2
      · exact hlt
      · have : turn_divisible source.length d = source.length := by omega
        rw [this] at hdvd
        exact absurd hdvd h
    refine ⟨?_, hdvd, hge, hleast⟩
    rw [pad_step_not_divisible hmod]
    unfold fill_txt
    rw [if_pos (by omega)]

/-- Claim C5, witness: the spec's padding scenario (`"ABCD"`, fill `'E'`,
d = 3 gives `"ABCDEE"`), and a successful decipher reporting
`filled = false`. -/
theorem claim_C5_witness :
    0 < 3 ∧ ¬ ((3 : Nat) ∣ 4) ∧
    pad_step ['A', 'B', 'C', 'D'] (some 'E') 3 =
      .ok (['A', 'B', 'C', 'D', 'E', 'E'], true) ∧
    decipher ⟨['F', 'J', 'C', 'R', 'X', 'L', 'U', 'D', 'N'], ['W', 'L', 'P', 'G', 'S', 'E'],
        some 'H', none⟩ =
      .ok ⟨['F', 'J', 'C', 'R', 'X', 'L', 'U', 'D', 'N'], ['W', 'L', 'P', 'G', 'S', 'E'],
        some 'H', ['C', 'O', 'D', 'I', 'G', 'O'], false, none⟩ ∧
    (⟨['F', 'J', 'C', 'R', 'X', 'L', 'U', 'D', 'N'], ['W', 'L', 'P', 'G', 'S', 'E'],
        some 'H', ['C', 'O', 'D', 'I', 'G', 'O'], false, none⟩ : Report).filled = false := by
  have h := claim_C5 ['A', 'B', 'C', 'D'] 'E' 3 (by decide)
  have hdec : decipher ⟨['F', 'J', 'C', 'R', 'X', 'L', 'U', 'D', 'N'],
      ['W', 'L', 'P', 'G', 'S', 'E'], some 'H', none⟩ =
      .ok ⟨['F', 'J', 'C', 'R', 'X', 'L', 'U', 'D', 'N'], ['W', 'L', 'P', 'G', 'S', 'E'],
        some 'H', ['C', 'O', 'D', 'I', 'G', 'O'], false, none⟩ := by
    rw [decipher_eq_decipherInt]
    decide
  refine ⟨by decide, by decide, ?_, hdec, ?_⟩
  · rw [(h.2.1 (by decide)).1]
    decide
  · exact h.2.2 _ _ hdec

/-! ### Claim C7 -/

/-- Claim C7: the literal scenario over the default 26-letter namespace —
cipher with key `"FJCRXLUDN"` and source `"CODIGO"` produces `"WLPGSE"` with
`filled = false`, and decipher with the same key and source `"WLPGSE"`
produces `"CODIGO"`. -/
theorem claim_C7 :
    cipher ⟨['F', 'J', 'C', 'R', 'X', 'L', 'U', 'D', 'N'], ['C', 'O', 'D', 'I', 'G', 'O'],
        some 'H', none⟩ =
      .ok ⟨['F', 'J', 'C', 'R', 'X', 'L', 'U', 'D', 'N'], ['C', 'O', 'D', 'I', 'G', 'O'],
        some 'H', ['W', 'L', 'P', 'G', 'S', 'E'], false, none⟩ ∧
    decipher ⟨['F', 'J', 'C', 'R', 'X', 'L', 'U', 'D', 'N'], ['W', 'L', 'P', 'G', 'S', 'E'],
        some 'H', none⟩ =
      .ok ⟨['F', 'J', 'C', 'R', 'X', 'L', 'U', 'D', 'N'], ['W', 'L', 'P', 'G', 'S', 'E'],
        some 'H', ['C', 'O', 'D', 'I', 'G', 'O'], false, none⟩ := by
  constructor
  · decide
  · rw [decipher_eq_decipherInt]
    decide

/-! ### Claim C8 -/

/-- Claim C8, counterexample: the lowercase source `"codigo"` uppercases to
a text over the default namespace, yet cipher rejects it with a
`ProcessingError` — membership validation is case-sensitive. -/
theorem claim_C8_counterexample :
    (∀ c ∈ upperStr ['c', 'o', 'd', 'i', 'g', 'o'], c ∈ DEFAULT_NAMESPACE) ∧
      cipher ⟨['F', 'J', 'C', 'R', 'X', 'L', 'U', 'D', 'N'], ['c', 'o', 'd', 'i', 'g', 'o'],
        some 'H', none⟩ = .err "the character is not present in the namespace" := by
  refine ⟨by decide, by decide⟩

/-- Claim C8, amended: source membership is validated verbatim
(case-sensitively): whenever some source character is not itself a namespace
symbol — even if its uppercased form is — cipher fails with a
`ProcessingError` instead of normalizing. -/
theorem claim_C8 (p : Processor) (ns : List Char)
    (hns : def_namespace p.nspace = .ok ns)
    (hsq : is_square p.key.length = true)
    (hfill : ∀ f, p.fill_letter = some f → f ∈ ns)
    (hkey : ∀ c ∈ p.key, c ∈ ns)
    (hbad : ∃ c ∈ p.source, c ∉ ns) :
    ∃ msg, cipher p = .err msg := by
  unfold cipher
  rw [hns, Outcome.bind_ok]
  obtain ⟨c, hcmem, hcnot⟩ := hbad
  obtain ⟨m, hm⟩ : ∃ m, check_chars p.source ns = .err m := by
    rcases check_chars_never_panics p.source ns with hok | he
    · exact absurd (check_chars_ok_iff.mp hok c hcmem) hcnot
    · exact he
  have hci : check_information p ns = .err m := by
    unfold check_information
    rw [if_neg (by simpa using hsq), check_fill_ok hfill, Outcome.bind_ok,
      check_chars_ok_iff.mpr hkey, Outcome.bind_ok, hm]
  refine ⟨m, ?_⟩
  rw [hci, Outcome.bind_err]

/-- Claim C8, witness at the lowercase source `"codigo"`. -/
theorem claim_C8_witness :
    def_namespace none = .ok DEFAULT_NAMESPACE ∧
    is_square (9 : Nat) = true ∧
    (∃ c ∈ ['c', 'o', 'd', 'i', 'g', 'o'], c ∉ DEFAULT_NAMESPACE) ∧
    (∃ msg, cipher ⟨['F', 'J', 'C', 'R', 'X', 'L', 'U', 'D', 'N'],
      ['c', 'o', 'd', 'i', 'g', 'o'], some 'H', none⟩ = .err msg) := by
  refine ⟨by decide, by decide, by decide, ?_⟩
  exact claim_C8 ⟨['F', 'J', 'C', 'R', 'X', 'L', 'U', 'D', 'N'],
    ['c', 'o', 'd', 'i', 'g', 'o'], some 'H', none⟩ DEFAULT_NAMESPACE
    (by decide) (by decide) (by decide) (by decide) (by decide)

/-- Reading the rendered text back through `char_pos` recovers the reduced
result-matrix entries, for a duplicate-free namespace without lowercase
letters. -/
theorem parse_translate_entry {d m : Nat} (K : Matrix (Fin d) (Fin d) Int)
    (S : Matrix (Fin d) (Fin m) Int) (ns : List Char)
    (hnodup : ns.Nodup) (hupper : ∀ c ∈ ns, ¬ c.isLower) (hnpos : 0 < ns.length)
    (i : Fin d) (j : Fin m) :
    (char_pos ((translate_txt_mtrx K S ns).getD (j.1 * d + i.1) 'A') ns : Int) =
      ((euc_mod ((K * S) i j) ns.length : Nat) : Int) := by
  rw [translate_getD K S ns j.1 i.1 j.2 i.2]
  simp only [Fin.eta]
  have ht : euc_mod ((K * S) i j) ns.length < ns.length := euc_mod_lt _ _ hnpos
  rw [List.getD_eq_getElem ns 'A' ht]
  unfold char_pos
  rw [toUpper_eq_self (hupper _ (List.getElem_mem ht)),
    findIdx_getElem_nodup hnodup _ ht]

/-- The key algebraic step of the round trip: multiplying a matrix congruent
to `K * S` by the integer decipher matrix `mmi * adj(K)` gives back `S`
modulo the namespace size, whenever `det(K) * mmi ≡ 1`. -/
theorem decipher_entry_modEq {d m : Nat} (K : Matrix (Fin d) (Fin d) Int)
    (S : Matrix (Fin d) (Fin m) Int) (N : Nat) (mmi : Int)
    (hmod : K.det * mmi ≡ 1 [ZMOD (N : Int)])
    (C : Matrix (Fin d) (Fin m) Int)
    (hCmod : ∀ i j, C i j ≡ (K * S) i j [ZMOD (N : Int)])
    (i : Fin d) (j : Fin m) :
    ((Matrix.of fun a b => mmi * K.adjugate a b) * C) i j ≡ S i j [ZMOD (N : Int)] := by
  have hDmat : (Matrix.of fun a b => mmi * K.adjugate a b) = (mmi • K.adjugate) := by
    funext a b
    simp [Matrix.smul_apply, smul_eq_mul]
  have h1 : ((Matrix.of fun a b => mmi * K.adjugate a b) * C) i j ≡
      ((Matrix.of fun a b => mmi * K.adjugate a b) * (K * S)) i j [ZMOD (N : Int)] :=
    mul_entry_modEq _ C (K * S) _ hCmod i j
  have h2 : ((Matrix.of fun a b => mmi * K.adjugate a b) * (K * S)) i j =
      (mmi * K.det) * S i j := by
    rw [← Matrix.mul_assoc, hDmat, Matrix.smul_mul, Matrix.adjugate_mul,
      Matrix.smul_mul, Matrix.smul_mul, Matrix.one_mul]
    simp only [Matrix.smul_apply, smul_eq_mul]
    ring
  have h3 : (mmi * K.det) * S i j ≡ 1 * S i j [ZMOD (N : Int)] :=
    Int.ModEq.mul_right _ (by rw [mul_comm]; exact hmod)
  calc ((Matrix.of fun a b => mmi * K.adjugate a b) * C) i j
      ≡ ((Matrix.of fun a b => mmi * K.adjugate a b) * (K * S)) i j [ZMOD (N : Int)] := h1
    _ = (mmi * K.det) * S i j := h2
    _ ≡ 1 * S i j [ZMOD (N : Int)] := h3
    _ = S i j := one_mul _

/-! ### Claim C1 -/

/-- Claim C1, counterexample: over the resolvable custom namespace
`"ABCDEFGHa"` (square length, no adjacent duplicates) the key `"HAAH"`
(matrix `[[7,0],[0,7]]`, determinant 49, invertible mod 9) ciphers `"FF"`
to `"aa"`; deciphering `"aa"` with the same key and namespace returns
`"AA"`, not the uppercased original `"FF"` — the case-insensitive symbol
lookup reads the symbol `'a'` (index 8) back as index 0. -/
theorem claim_C1_counterexample :
    cipher ⟨['H', 'A', 'A', 'H'], ['F', 'F'], some 'A',
        some ['A', 'B', 'C', 'D', 'E', 'F', 'G', 'H', 'a']⟩ =
      .ok ⟨['H', 'A', 'A', 'H'], ['F', 'F'], some 'A', ['a', 'a'], false,
        some ['A', 'B', 'C', 'D', 'E', 'F', 'G', 'H', 'a']⟩ ∧
    decipher ⟨['H', 'A', 'A', 'H'], ['a', 'a'], some 'A',
        some ['A', 'B', 'C', 'D', 'E', 'F', 'G', 'H', 'a']⟩ =
      .ok ⟨['H', 'A', 'A', 'H'], ['a', 'a'], some 'A', ['A', 'A'], false,
        some ['A', 'B', 'C', 'D', 'E', 'F', 'G', 'H', 'a']⟩ ∧
    upperStr ['F', 'F'] = ['F', 'F'] ∧
    (['A', 'A'] : List Char) ≠ ['F', 'F'] := by
  refine ⟨by decide, ?_, by decide, by decide⟩
  rw [decipher_eq_decipherInt]
  decide

/-- Claim C1, amended: the round trip holds once the namespace is in
addition duplicate-free and contains no ASCII lowercase letter (so the
case-insensitive symbol lookup of `char_pos` really inverts the rendering
of `symbol_at`): for every such namespace, whenever cipher succeeds on a
key, source, and fill letter, deciphering the produced result text with the
same key, fill letter, and namespace succeeds and returns exactly the
uppercased (padded) source text the cipher path processed. -/
theorem claim_C1 (p : Processor) (ns : List Char) (rpt : Report)
    (padded : List Char) (wasF : Bool)
    (hns : def_namespace p.nspace = .ok ns)
    (hnodup : ns.Nodup)
    (hupper : ∀ c ∈ ns, ¬ c.isLower)
    (hpad : pad_step p.source p.fill_letter (isqrt p.key.length) = .ok (padded, wasF))
    (hcip : cipher p = .ok rpt) :
    ∃ rpt2 : Report, decipher { p with source := rpt.result_txt } = .ok rpt2 ∧
      rpt2.result_txt = padded ∧ rpt2.filled = false := by
  unfold cipher at hcip
  rw [hns, Outcome.bind_ok] at hcip
  cases hci : check_information p ns with
  | err m => rw [hci] at hcip; cases hcip
  | panic => rw [hci] at hcip; cases hcip
  | ok u =>
  rw [hci, Outcome.bind_ok] at hcip
  by_cases hd0 : isqrt p.key.length = 0
  · rw [if_pos hd0] at hcip; cases hcip
  rw [if_neg hd0, hpad, Outcome.bind_ok] at hcip
  cases htxk : txt_mtrx_repr (isqrt p.key.length) (isqrt p.key.length) p.key ns with
  | err m => rw [htxk] at hcip; cases hcip
  | panic => rw [htxk] at hcip; cases hcip
  | ok K =>
  rw [htxk, Outcome.bind_ok] at hcip
  cases hck : check_key_mtrx_validness K.det ns.length with
  | err m => rw [hck] at hcip; cases hcip
  | panic => rw [hck] at hcip; cases hcip
  | ok u2 =>
  rw [hck, Outcome.bind_ok] at hcip
  cases htxs : txt_mtrx_repr (padded.length / isqrt p.key.length) (isqrt p.key.length)
      padded ns with
  | err m => rw [htxs] at hcip; cases hcip
  | panic => rw [htxs] at hcip; cases hcip
  | ok S =>
  rw [htxs, Outcome.bind_ok] at hcip
  cases hcip
  obtain ⟨hsq, hfillm, hkeym, hsrcm⟩ := check_information_ok_iff.mp hci
  obtain ⟨hdet, hmvsome, hNle⟩ := check_key_ok_iff.mp hck
  obtain ⟨mmi, hmmi⟩ := Option.isSome_iff_exists.mp hmvsome
  have hdpos : 0 < isqrt p.key.length := Nat.pos_of_ne_zero hd0
  have hmodeq1 : K.det * mmi ≡ 1 [ZMOD (ns.length : Int)] := modinverse_spec _ _ _ hmmi
  have hnpos : 0 < ns.length := by
    have hkl : p.key.length ≠ 0 := fun h0 => hd0 (by rw [h0]; rfl)
    obtain ⟨c, hc⟩ := List.exists_mem_of_ne_nil p.key
      (fun hnil => hkl (by rw [hnil]; rfl))
    exact List.length_pos_of_mem (hkeym c hc)
  have hpadmem : ∀ c ∈ padded, c ∈ ns :=
    pad_step_mem hsrcm hfillm hupper hpad
  have hpaddvd : isqrt p.key.length ∣ padded.length :=
    pad_step_length_dvd hdpos hpad
  obtain ⟨htxsc, htxsl, hS⟩ := txt_mtrx_repr_ok_inv htxs
  have hctlen : (translate_txt_mtrx K S ns).length =
      (padded.length / isqrt p.key.length) * isqrt p.key.length :=
    translate_length K S ns
  have hctmem : ∀ c ∈ translate_txt_mtrx K S ns, c ∈ ns := translate_mem K S ns hnpos
  rw [decipher_eq_decipherInt]
  unfold decipherInt
  dsimp only [build_report]
  rw [hns, Outcome.bind_ok]
  have hci2 : check_information
      { key := p.key, source := translate_txt_mtrx K S ns,
        fill_letter := p.fill_letter, nspace := p.nspace } ns = .ok () :=
    check_information_ok_iff.mpr ⟨hsq, hfillm, hkeym, hctmem⟩
  rw [hci2, Outcome.bind_ok, htxk, Outcome.bind_ok, if_neg hdet, hck, Outcome.bind_ok,
    hmmi, unwrapO_some, Outcome.bind_ok, if_neg hd0]
  have hctlen2 : (translate_txt_mtrx K S ns).length / isqrt p.key.length =
      padded.length / isqrt p.key.length := by
    rw [hctlen, Nat.mul_div_cancel _ hdpos]
  rw [hctlen2]
  have hctup : ∀ c ∈ translate_txt_mtrx K S ns, c.toUpper ∈ ns := fun c hc => by
    rw [toUpper_eq_self (hupper c (hctmem c hc))]
    exact hctmem c hc
  rw [txt_mtrx_repr_ok hctup hctlen, Outcome.bind_ok]
  refine ⟨_, rfl, ?_, rfl⟩
  dsimp only [build_report]
  apply List.ext_getElem
  · rw [translate_length, Nat.div_mul_cancel hpaddvd]
  · intro n h1 h2
    have hi : n % isqrt p.key.length < isqrt p.key.length := Nat.mod_lt _ hdpos
    have hj : n / isqrt p.key.length < padded.length / isqrt p.key.length := by
      rw [Nat.div_lt_iff_lt_mul hdpos, Nat.div_mul_cancel hpaddvd]
      exact h2
    have hn : n = (n / isqrt p.key.length) * isqrt p.key.length + n % isqrt p.key.length := by
      have h := (Nat.div_add_mod n (isqrt p.key.length)).symm
      rw [Nat.mul_comm] at h
      exact h
    rw [← List.getD_eq_getElem _ 'A' h1, ← List.getD_eq_getElem _ 'A' h2]
    rw [hn]
    rw [translate_getD _ _ ns (n / isqrt p.key.length) (n % isqrt p.key.length) hj hi]
    have hCmod : ∀ (i : Fin (isqrt p.key.length))
        (j : Fin (padded.length / isqrt p.key.length)),
        (Matrix.of fun (a : Fin (isqrt p.key.length))
          (b : Fin (padded.length / isqrt p.key.length)) =>
          (char_pos ((translate_txt_mtrx K S ns).getD
            (b.1 * isqrt p.key.length + a.1) 'A') ns : Int)) i j ≡
          (K * S) i j [ZMOD (ns.length : Int)] := by
      intro i j
      show (char_pos ((translate_txt_mtrx K S ns).getD
        (j.1 * isqrt p.key.length + i.1) 'A') ns : Int) ≡ _ [ZMOD (ns.length : Int)]
      rw [parse_translate_entry K S ns hnodup hupper hnpos i j]
      exact euc_mod_modEq _ _ hnpos
    rw [euc_mod_congr _ _ _ hnpos
      (decipher_entry_modEq K S ns.length mmi hmodeq1 _ hCmod
        ⟨n % isqrt p.key.length, hi⟩ ⟨n / isqrt p.key.length, hj⟩)]
    rw [hS]
    simp only [Matrix.of_apply]
    have hc0mem : padded.getD ((n / isqrt p.key.length) * isqrt p.key.length +
        n % isqrt p.key.length) 'A' ∈ padded := by
      rw [List.getD_eq_getElem _ _ (show (n / isqrt p.key.length) * isqrt p.key.length +
        n % isqrt p.key.length < padded.length by omega)]
      exact List.getElem_mem _
    have hc0up : (padded.getD ((n / isqrt p.key.length) * isqrt p.key.length +
        n % isqrt p.key.length) 'A').toUpper ∈ ns := by
      rw [toUpper_eq_self (hupper _ (hpadmem _ hc0mem))]
      exact hpadmem _ hc0mem
    rw [euc_mod_of_lt _ _ (char_pos_lt hc0up)]
    rw [getD_char_pos hc0up, toUpper_eq_self (hupper _ (hpadmem _ hc0mem))]

/-- Claim C1, witness at the literal scenario: key `"FJCRXLUDN"`, source
`"CODIGO"`, fill `'H'`, default namespace. -/
theorem claim_C1_witness :
    def_namespace none = .ok DEFAULT_NAMESPACE ∧
    DEFAULT_NAMESPACE.Nodup ∧
    (∀ c ∈ DEFAULT_NAMESPACE, ¬ c.isLower) ∧
    pad_step ['C', 'O', 'D', 'I', 'G', 'O'] (some 'H') (isqrt 9) =
      .ok (['C', 'O', 'D', 'I', 'G', 'O'], false) ∧
    cipher ⟨['F', 'J', 'C', 'R', 'X', 'L', 'U', 'D', 'N'], ['C', 'O', 'D', 'I', 'G', 'O'],
        some 'H', none⟩ =
      .ok ⟨['F', 'J', 'C', 'R', 'X', 'L', 'U', 'D', 'N'], ['C', 'O', 'D', 'I', 'G', 'O'],
        some 'H', ['W', 'L', 'P', 'G', 'S', 'E'], false, none⟩ ∧
    ∃ rpt2 : Report,
      decipher ⟨['F', 'J', 'C', 'R', 'X', 'L', 'U', 'D', 'N'],
        ['W', 'L', 'P', 'G', 'S', 'E'], some 'H', none⟩ = .ok rpt2 ∧
      rpt2.result_txt = ['C', 'O', 'D', 'I', 'G', 'O'] ∧ rpt2.filled = false := by
  refine ⟨by decide, by decide, by decide, by decide, by decide, ?_⟩
  exact claim_C1 ⟨['F', 'J', 'C', 'R', 'X', 'L', 'U', 'D', 'N'],
      ['C', 'O', 'D', 'I', 'G', 'O'], some 'H', none⟩ DEFAULT_NAMESPACE
    ⟨['F', 'J', 'C', 'R', 'X', 'L', 'U', 'D', 'N'], ['C', 'O', 'D', 'I', 'G', 'O'],
      some 'H', ['W', 'L', 'P', 'G', 'S', 'E'], false, none⟩
    ['C', 'O', 'D', 'I', 'G', 'O'] false
    (by decide) (by decide) (by decide) (by decide) (by decide)
